import Mathlib

/-!
Verification development for the `reparser` library, a regex-based
lexer/parser for inline markup.

The embedding is shallow: the pattern strings handed to `re.compile` are
modelled by a small deterministic pattern language `Pat` covering exactly the
constructs the library's token definitions use (literals, lookbehinds,
lookaheads, the boundary classes of the markdown-style tokens, and the
`(?=.+?end)` pairing lookahead that `Token.__init__` appends to every paired
token's start pattern).  `re.finditer` becomes a fueled left-to-right scan
with leftmost-alternative priority.  The scan loop of `Parser.parse` is
translated statement by statement; the unguarded `self.__data[-1]` in
`TokenStack.remove_token` (an `IndexError` on an empty stack) is modelled by
an `Option` result, so `parse` itself returns `Option (List Segment)`.
-/

namespace Reparser

/-! ## Python dict model

Attribute bags (`**params`) are ordered key/value lists.  `dictSet` mirrors
`d[k] = v` (replace in place, else append); `dictUpdate` mirrors
`d.update(new)`. -/

inductive Value where
  | str (s : List Char)
  | bool (b : Bool)
  | matchGroup (group : String)
deriving DecidableEq

abbrev Dict := List (String × Value)

def dLookup (d : Dict) (k : String) : Option Value :=
  match d with
  | [] => none
  | (k', v) :: rest => if k' = k then some v else dLookup rest k

def dictSet (d : Dict) (k : String) (v : Value) : Dict :=
  if (dLookup d k).isSome then
    d.map (fun kv => if kv.1 = k then (k, v) else kv)
  else
    d ++ [(k, v)]

def dictUpdate (d : Dict) (new : Dict) : Dict :=
  new.foldl (fun acc kv => dictSet acc kv.1 kv.2) d

def dErase (d : Dict) (k : String) : Dict :=
  d.filter (fun kv => kv.1 ≠ k)

/-- Keys of a dict are pairwise distinct (true for every dict built from
Python keyword arguments). -/
def dKeysUnique (d : Dict) : Bool :=
  (d.map Prod.fst).Nodup |> decide

/-! ## Character classes and the pattern language -/

/-- Python `\s` (the ASCII part, which is all the repository's inputs use). -/
def isWS (c : Char) : Bool :=
  c = ' ' || c = '\t' || c = '\n' || c = '\r' || c = '\x0b' || c = '\x0c'

/-- A regex character class: optionally `\s` plus an explicit set of chars. -/
structure CClass where
  ws : Bool
  chars : List Char
deriving DecidableEq

def CClass.mem (cl : CClass) (c : Char) : Bool :=
  (cl.ws && isWS c) || cl.chars.contains c

/-- The pattern constructs used by the library's token definitions.
`lookPlus p` is the non-consuming pairing lookahead `(?=.+?p)` (with
`re.DOTALL`, so `.` matches every character): it succeeds exactly when `p`
matches at some position at least one character further right. -/
inductive Pat where
  | lit (s : List Char)
  | seq (p q : Pat)
  | lookBehindNotLit (s : List Char)
  | lookBehindNotIn (cl : CClass)
  | atBOSorPrevIn (cl : CClass)
  | atEOSorNextIn (cl : CClass)
  | lookAheadNotLit (s : List Char)
  | lookAheadNotIn (cl : CClass)
  | lookPlus (p : Pat)
deriving DecidableEq

def litMatches : List Char → List Char → Bool
  | [], _ => true
  | _ :: _, [] => false
  | c :: s, d :: t => c = d && litMatches s t

/-- `text[a:b]` on lists of characters. -/
def extract (text : List Char) (a b : Nat) : List Char :=
  (text.drop a).take (b - a)

/-- Match a pattern at position `i`, returning the number of characters it
consumes.  All patterns here are deterministic (no alternation inside a
token pattern), so no backtracking is required. -/
def matchAt : Pat → List Char → Nat → Option Nat
  | .lit s, text, i =>
      if litMatches s (text.drop i) then some s.length else none
  | .seq p q, text, i =>
      match matchAt p text i with
      | none => none
      | some l1 =>
        match matchAt q text (i + l1) with
        | none => none
        | some l2 => some (l1 + l2)
  | .lookBehindNotLit s, text, i =>
      if s.length ≤ i && litMatches s (text.drop (i - s.length)) then none
      else some 0
  | .lookBehindNotIn cl, text, i =>
      if i = 0 then some 0
      else
        match text.get? (i - 1) with
        | some c => if cl.mem c then none else some 0
        | none => some 0
  | .atBOSorPrevIn cl, text, i =>
      if i = 0 then some 0
      else
        match text.get? (i - 1) with
        | some c => if cl.mem c then some 0 else none
        | none => none
  | .atEOSorNextIn cl, text, i =>
      match text.get? i with
      | some c => if cl.mem c then some 0 else none
      | none => some 0
  | .lookAheadNotLit s, text, i =>
      if litMatches s (text.drop i) then none else some 0
  | .lookAheadNotIn cl, text, i =>
      match text.get? i with
      | some c => if cl.mem c then none else some 0
      | none => some 0
  | .lookPlus p, text, i =>
      if (List.range (text.length + 1)).any
          (fun k => decide (i + 1 ≤ k) && (matchAt p text k).isSome) then
        some 0
      else none

theorem litMatches_length {s t : List Char} (h : litMatches s t = true) :
    s.length ≤ t.length := by
  induction s generalizing t with
  | nil => simp
  | cons c s ih =>
    cases t with
    | nil => simp [litMatches] at h
    | cons d t =>
      simp only [litMatches, Bool.and_eq_true] at h
      simpa using ih h.2

theorem matchAt_le {p : Pat} {text : List Char} {i l : Nat}
    (hi : i ≤ text.length) (h : matchAt p text i = some l) :
    i + l ≤ text.length := by
  induction p generalizing i l with
  | lit s =>
    simp only [matchAt] at h
    split at h
    · rename_i hm
      cases h
      have := litMatches_length hm
      simp only [List.length_drop] at this
      omega
    · cases h
  | seq p q ihp ihq =>
    simp only [matchAt] at h
    split at h
    · cases h
    · rename_i l1 hp
      split at h
      · cases h
      · rename_i l2 hq
        cases h
        have h1 := ihp hi hp
        have h2 := ihq h1 hq
        omega
  | lookBehindNotLit s =>
    simp only [matchAt] at h
    split at h
    · cases h
    · cases h; omega
  | lookBehindNotIn cl =>
    simp only [matchAt] at h
    split at h
    · cases h; omega
    · split at h
      · split at h
        · cases h
        · cases h; omega
      · cases h; omega
  | atBOSorPrevIn cl =>
    simp only [matchAt] at h
    split at h
    · cases h; omega
    · split at h
      · split at h
        · cases h; omega
        · cases h
      · cases h
  | atEOSorNextIn cl =>
    simp only [matchAt] at h
    split at h
    · split at h
      · cases h; omega
      · cases h
    · cases h; omega
  | lookAheadNotLit s =>
    simp only [matchAt] at h
    split at h
    · cases h
    · cases h; omega
  | lookAheadNotIn cl =>
    simp only [matchAt] at h
    split at h
    · split at h
      · cases h
      · cases h; omega
    · cases h; omega
  | lookPlus p ih =>
    simp only [matchAt] at h
    split at h
    · cases h; omega
    · cases h

/-! ## Token (`reparser.Token`)

`Token.__init__` stores the caller's patterns; for a paired token (one with a
`pattern_end`) it rewrites the start pattern to
`pattern_start + '(?=.+?%s)' % pattern_end`.  The group-naming machinery
(`modify_pattern`, `group_start`, `group_end`) exists only so a compound
match can be traced back to its `(token, match_type)`; the embedding keeps
that association directly in `build_regex`. -/

inductive MatchType where
  | start
  | end_
  | single
deriving DecidableEq

structure Token where
  name : String
  skip : Bool
  params : Dict
  pstart : Pat
  pend : Option Pat
deriving DecidableEq

/-- Effective start pattern after `Token.__init__`: for paired tokens the
pairing lookahead `(?=.+?pattern_end)` is appended. -/
def Token.pattern_start (t : Token) : Pat :=
  match t.pend with
  | none => t.pstart
  | some e => .seq t.pstart (.lookPlus e)

/-- `Parser.build_regex` + `Parser.build_groups`, fused: the compound regex
is the ordered list of alternatives, each already tagged with its
`(token, match_type)` (per token: start pattern, then end pattern). -/
def build_regex (tokens : List Token) : List (Token × MatchType × Pat) :=
  tokens.foldr
    (fun t acc =>
      match t.pend with
      | none => (t, MatchType.single, t.pattern_start) :: acc
      | some e => (t, MatchType.start, t.pattern_start) :: (t, MatchType.end_, e) :: acc)
    []

/-! ## finditer -/

/-- One match of the compound regex: the fired alternative's token and match
type, the span `[mstart, mstop)`, and the named captures that participated
(the `Pat` model extracts no inner captures, so the scan produces `[]`;
capture extraction with transforms is modelled on `MatchGroup` below). -/
structure MatchEv where
  token : Token
  mtype : MatchType
  mstart : Nat
  mstop : Nat
  captures : List (String × List Char)
deriving DecidableEq

/-- Leftmost-alternative dispatch of the compound regex at one position. -/
def firstAlt (alts : List (Token × MatchType × Pat)) (text : List Char)
    (i : Nat) : Option (Token × MatchType × Nat) :=
  alts.findSome? (fun a => (matchAt a.2.2 text i).map (fun l => (a.1, a.2.1, l)))

/-- `re.finditer`: successive non-overlapping leftmost matches; after an
empty match the scan advances one position.  The fuel only bounds the scan
(every step advances the position, so `text.length + 1` never runs out). -/
def finditerAux (alts : List (Token × MatchType × Pat)) (text : List Char) :
    Nat → Nat → List MatchEv
  | 0, _ => []
  | fuel + 1, i =>
    if i > text.length then []
    else
      match firstAlt alts text i with
      | none => finditerAux alts text fuel (i + 1)
      | some (t, mt, l) =>
        ⟨t, mt, i, i + l, []⟩ ::
          finditerAux alts text fuel (if l = 0 then i + 1 else i + l)

def finditer (alts : List (Token × MatchType × Pat)) (text : List Char) :
    List MatchEv :=
  finditerAux alts text (text.length + 1) 0

/-! ## TokenStack -/

/-- `TokenStack.get_params`: merge the params of all open tokens, outermost
first, by `dict.update`. -/
def get_params (stack : List Token) : Dict :=
  stack.foldl (fun acc t => dictUpdate acc t.params) []

/-- `self.__data.reverse(); self.__data.remove(token)` — remove the first
occurrence of the reversed list, i.e. the last occurrence. -/
def removeFirst : List Token → Token → Option (List Token)
  | [], _ => none
  | x :: xs, t =>
    if x = t then some xs else (removeFirst xs t).map (fun r => x :: r)

/-- `TokenStack.remove_token`.  The source checks `self.__data[-1] is token`
before anything else, so an empty stack raises `IndexError`: that outcome is
`none`.  Otherwise the result is `some (found, new_stack)` exactly as the
method returns `True`/`False`. -/
def remove_token (stack : List Token) (t : Token) : Option (Bool × List Token) :=
  match stack.getLast? with
  | none => none
  | some top =>
    if top = t then some (true, stack.dropLast)
    else
      match (removeFirst stack.reverse t).map List.reverse with
      | some stack' => some (true, stack')
      | none => some (false, stack)

/-- `TokenStack.skip_token`. -/
def skip_token (stack : List Token) (token : Token) (mt : MatchType) : Bool :=
  match stack.getLast? with
  | none => false
  | some top =>
    if top.skip then
      if top = token then !(mt == MatchType.end_) else true
    else false

/-! ## Segment and the scan loop of `Parser.parse` -/

structure Segment where
  text : Value
  params : Dict
deriving DecidableEq

def segText (s : Segment) : List Char :=
  match s.text with
  | .str l => l
  | _ => []

/-- Engine-level resolution of a `MatchGroup`-valued param against a match's
captures (`Segment.update_text` / `update_params`).  Transform functions and
the `None`-versus-`''` distinction are modelled in full on
`MatchGroup.get_group_value` below; here an absent capture resolves to the
empty string. -/
def resolveV (tok : Token) (ev : MatchEv) (v : Value) : Value :=
  match v with
  | .matchGroup g =>
    .str (match ev.captures.lookup (tok.name ++ "_" ++ g) with
          | some s => s
          | none => [])
  | v => v

/-- Segment built for a `MatchType.single` match: params from the stack,
`'text'` set to the matched text, overridden by the token's own params, then
split into the `text` argument and the remaining params (with
`MatchGroup` placeholders resolved, as in `Segment.__init__`). -/
def mkSingle (text : List Char) (ev : MatchEv) (params : Dict) : Segment :=
  let sp := dictUpdate (dictSet params "text" (Value.str (extract text ev.mstart ev.mstop)))
      ev.token.params
  let t := match dLookup sp "text" with
    | some v => v
    | none => Value.str []
  { text := resolveV ev.token ev t,
    params := (dErase sp "text").map (fun kv => (kv.1, resolveV ev.token ev kv.2)) }

/-- The `for match in self.regex.finditer(text)` loop of `Parser.parse`,
over an explicit list of match events, followed by the trailing-text
emission.  `none` models the `IndexError` escaping from
`remove_token` on an empty stack. -/
def parseLoop (post : List Char → List Char) (text : List Char) :
    List MatchEv → List Token → Nat → Option (List Segment)
  | [], stack, last =>
    if last < text.length then
      some [⟨Value.str (post (text.drop last)), get_params stack⟩]
    else some []
  | ev :: rest, stack, last =>
    let params := get_params stack
    if skip_token stack ev.token ev.mtype then
      parseLoop post text rest stack last
    else
      match (if ev.mtype = MatchType.end_ then remove_token stack ev.token
             else some (true, stack)) with
      | none => none
      | some (false, stack1) => parseLoop post text rest stack1 last
      | some (true, stack1) =>
        let between :=
          if last < ev.mstart then
            [⟨Value.str (post (extract text last ev.mstart)), params⟩]
          else []
        let stack2 := if ev.mtype = MatchType.start then stack1 ++ [ev.token] else stack1
        let singles := if ev.mtype = MatchType.single then [mkSingle text ev params] else []
        (parseLoop post text rest stack2 ev.mstop).map
          (fun segs => between ++ singles ++ segs)

/-- `Parser.parse` with an explicit postprocess (`Parser.postprocess` is the
identity; subclasses override it). `Parser.preprocess` is the identity. -/
def parseWith (post : List Char → List Char) (tokens : List Token)
    (text : List Char) : Option (List Segment) :=
  parseLoop post text (finditer (build_regex tokens) text) [] 0

def parse (tokens : List Token) (text : List Char) : Option (List Segment) :=
  parseWith id tokens text

/-! ## Companion functions for the partition property -/

/-- The spans the loop consumes, with the text each one contributes to the
output: `[]` for a consumed start or end delimiter, the emitted segment text
for a single match.  Skipped matches and unmatched closers consume nothing.
The stack simulation is the same as in `parseLoop`. -/
def consumedReps (text : List Char) :
    List MatchEv → List Token → Nat → Option (List (Nat × Nat × List Char))
  | [], _, _ => some []
  | ev :: rest, stack, last =>
    let params := get_params stack
    if skip_token stack ev.token ev.mtype then
      consumedReps text rest stack last
    else
      match (if ev.mtype = MatchType.end_ then remove_token stack ev.token
             else some (true, stack)) with
      | none => none
      | some (false, stack1) => consumedReps text rest stack1 last
      | some (true, stack1) =>
        let stack2 := if ev.mtype = MatchType.start then stack1 ++ [ev.token] else stack1
        let rep := if ev.mtype = MatchType.single then segText (mkSingle text ev params) else []
        (consumedReps text rest stack2 ev.mstop).map
          (fun rs => (ev.mstart, ev.mstop, rep) :: rs)

/-- Rebuild a string from literal gaps (each put through `post`, and emitted
only when non-empty, as in the loop) interleaved with the replacement texts
of the consumed spans. -/
def spliceWith (post : List Char → List Char) (text : List Char) :
    Nat → List (Nat × Nat × List Char) → List Char
  | last, [] => if last < text.length then post (text.drop last) else []
  | last, (s, e, r) :: rest =>
    (if last < s then post (extract text last s) else []) ++ r ++
      spliceWith post text e rest

def joinTexts (segs : List Segment) : List Char :=
  (segs.map segText).flatten

/-- Well-formedness of a match list relative to a scan position: spans are
ordered left to right, non-overlapping, and within the text — exactly what
`re.finditer` guarantees. -/
def validFrom (text : List Char) : Nat → List MatchEv → Bool
  | _, [] => true
  | last, ev :: rest =>
    decide (last ≤ ev.mstart) && decide (ev.mstart ≤ ev.mstop) &&
      decide (ev.mstop ≤ text.length) && validFrom text ev.mstop rest

/-- The consumed spans are ordered, non-overlapping and within the text:
together with `spliceWith` this is the no-gaps/no-overlaps tiling. -/
def repsOrdered (text : List Char) : Nat → List (Nat × Nat × List Char) → Bool
  | _, [] => true
  | last, (s, e, _) :: rest =>
    decide (last ≤ s) && decide (s ≤ e) && decide (e ≤ text.length) &&
      repsOrdered text e rest

/-! ## Concrete tokens

`tests/test_example.py` builds its tokens from

  boundary_chars = \s`!()[]\x7b\x7d;:'".,<>?«»“”‘’*_~=
  b_left         = (?:(?<=[boundary_chars])|(?<=^))
  b_right        = (?:(?=[boundary_chars])|(?=$))
  markdown_start = b_left (?<!\\) tag (?!\s) (?!tag)
  markdown_end   = (?<!tag) (?<!\s) (?<!\\) tag b_right

(the doubled braces in the source string are literal `\x7b`/`\x7d` once the
format escaping is undone). -/

def boundaryClass : CClass :=
  { ws := true,
    chars := ['`', '!', '(', ')', '[', ']', '\x7b', '\x7d', ';', ':', '\'',
              '"', '.', ',', '<', '>', '?', '«', '»', '“', '”', '‘', '’',
              '*', '_', '~', '='] }

def wsClass : CClass := { ws := true, chars := [] }

def mdStartPat (tag : List Char) : Pat :=
  .seq (.atBOSorPrevIn boundaryClass)
    (.seq (.lookBehindNotLit ['\\'])
      (.seq (.lit tag)
        (.seq (.lookAheadNotIn wsClass) (.lookAheadNotLit tag))))

def mdEndPat (tag : List Char) : Pat :=
  .seq (.lookBehindNotLit tag)
    (.seq (.lookBehindNotIn wsClass)
      (.seq (.lookBehindNotLit ['\\'])
        (.seq (.lit tag) (.atEOSorNextIn boundaryClass))))

/-- `Token('b1', *markdown(r'\*\*'), is_bold=True)`. -/
def bToken : Token :=
  { name := "b1", skip := false, params := [("is_bold", Value.bool true)],
    pstart := mdStartPat ['*', '*'], pend := some (mdEndPat ['*', '*']) }

/-- `Token('i1', *markdown(r'\*'), is_italic=True)`. -/
def iToken : Token :=
  { name := "i1", skip := false, params := [("is_italic", Value.bool true)],
    pstart := mdStartPat ['*'], pend := some (mdEndPat ['*']) }

/-- A bare paired token `Token('s', r'\*\*', r'\*\*')`: literal delimiters
with no boundary guards. -/
def sToken : Token :=
  { name := "s", skip := false, params := [],
    pstart := .lit ['*', '*'], pend := some (.lit ['*', '*']) }

/-! ## Structural lemmas about the scan -/

theorem validFrom_mono {text : List Char} {a b : Nat} {ms : List MatchEv}
    (hab : a ≤ b) (h : validFrom text b ms = true) : validFrom text a ms = true := by
  cases ms with
  | nil => rfl
  | cons ev rest =>
    simp only [validFrom, Bool.and_eq_true, decide_eq_true_eq] at h ⊢
    exact ⟨⟨⟨le_trans hab h.1.1.1, h.1.1.2⟩, h.1.2⟩, h.2⟩

theorem repsOrdered_mono {text : List Char} {a b : Nat}
    {reps : List (Nat × Nat × List Char)} (hab : a ≤ b)
    (h : repsOrdered text b reps = true) : repsOrdered text a reps = true := by
  cases reps with
  | nil => rfl
  | cons r rest =>
    obtain ⟨s, e, rep⟩ := r
    simp only [repsOrdered, Bool.and_eq_true, decide_eq_true_eq] at h ⊢
    exact ⟨⟨⟨le_trans hab h.1.1.1, h.1.1.2⟩, h.1.2⟩, h.2⟩

theorem firstAlt_le {alts : List (Token × MatchType × Pat)} {text : List Char}
    {i l : Nat} {t : Token} {mt : MatchType} (hi : i ≤ text.length)
    (h : firstAlt alts text i = some (t, mt, l)) : i + l ≤ text.length := by
  induction alts with
  | nil => simp [firstAlt] at h
  | cons a rest ih =>
    simp only [firstAlt, List.findSome?_cons] at h
    cases hm : matchAt a.2.2 text i with
    | none => rw [hm] at h; simp only [Option.map_none'] at h; exact ih h
    | some l1 =>
      rw [hm] at h
      simp only [Option.map_some'] at h
      cases h
      exact matchAt_le hi hm

theorem finditerAux_valid (alts : List (Token × MatchType × Pat))
    (text : List Char) :
    ∀ fuel pos, validFrom text pos (finditerAux alts text fuel pos) = true := by
  intro fuel
  induction fuel with
  | zero => intro pos; rfl
  | succ fuel ih =>
    intro pos
    simp only [finditerAux]
    split
    · rfl
    · rename_i hpos
      have hposle : pos ≤ text.length := by omega
      cases hfa : firstAlt alts text pos with
      | none => exact validFrom_mono (Nat.le_succ pos) (ih (pos + 1))
      | some r =>
        obtain ⟨t, mt, l⟩ := r
        have hle := firstAlt_le hposle hfa
        simp only [validFrom, Bool.and_eq_true, decide_eq_true_eq]
        refine ⟨⟨⟨le_refl pos, Nat.le_add_right pos l⟩, hle⟩, ?_⟩
        by_cases hl : l = 0
        · subst hl
          simpa using validFrom_mono (Nat.le_succ pos) (ih (pos + 1))
        · simpa [hl] using ih (pos + l)

theorem finditer_valid (alts : List (Token × MatchType × Pat))
    (text : List Char) : validFrom text 0 (finditer alts text) = true :=
  finditerAux_valid alts text (text.length + 1) 0

theorem joinTexts_append (a b : List Segment) :
    joinTexts (a ++ b) = joinTexts a ++ joinTexts b := by
  simp [joinTexts]

/-- The scan loop rebuilds the input: its segment texts are exactly the
literal gaps (postprocessed) interleaved with the consumed spans'
replacement texts. -/
theorem parseLoop_splice (post : List Char → List Char) (text : List Char) :
    ∀ (ms : List MatchEv) (stack : List Token) (last : Nat)
      (segs : List Segment) (reps : List (Nat × Nat × List Char)),
      parseLoop post text ms stack last = some segs →
      consumedReps text ms stack last = some reps →
      joinTexts segs = spliceWith post text last reps := by
  intro ms
  induction ms with
  | nil =>
    intro stack last segs reps hp hc
    simp only [parseLoop] at hp
    simp only [consumedReps, Option.some.injEq] at hc
    subst hc
    simp only [spliceWith]
    split at hp
    · rename_i hlt
      cases hp
      simp [joinTexts, segText, hlt]
    · rename_i hlt
      cases hp
      simp [joinTexts, hlt]
  | cons ev rest ih =>
    intro stack last segs reps hp hc
    simp only [parseLoop] at hp
    simp only [consumedReps] at hc
    by_cases hskip : skip_token stack ev.token ev.mtype
    · rw [if_pos hskip] at hp hc
      exact ih stack last segs reps hp hc
    · rw [if_neg hskip] at hp hc
      cases hstep : (if ev.mtype = MatchType.end_ then remove_token stack ev.token
          else some (true, stack)) with
      | none => rw [hstep] at hp; cases hp
      | some r =>
        obtain ⟨found, stack1⟩ := r
        rw [hstep] at hp hc
        cases found with
        | false => exact ih stack1 last segs reps hp hc
        | true =>
          simp only [Option.map_eq_some'] at hp hc
          obtain ⟨segs', hrec, hsegs⟩ := hp
          obtain ⟨reps', hrecc, hreps⟩ := hc
          subst hsegs
          subst hreps
          simp only [spliceWith]
          rw [joinTexts_append, joinTexts_append]
          rw [ih _ _ _ _ hrec hrecc]
          congr 2
          · split
            · simp [joinTexts, segText]
            · simp [joinTexts]
          · split
            · simp [joinTexts]
            · simp [joinTexts]

/-- The spans consumed by the loop tile the text left to right. -/
theorem consumedReps_ordered (text : List Char) :
    ∀ (ms : List MatchEv) (stack : List Token) (last : Nat)
      (reps : List (Nat × Nat × List Char)),
      validFrom text last ms = true →
      consumedReps text ms stack last = some reps →
      repsOrdered text last reps = true := by
  intro ms
  induction ms with
  | nil =>
    intro stack last reps _ hc
    simp only [consumedReps, Option.some.injEq] at hc
    subst hc
    rfl
  | cons ev rest ih =>
    intro stack last reps hv hc
    simp only [validFrom, Bool.and_eq_true, decide_eq_true_eq] at hv
    obtain ⟨⟨⟨h1, h2⟩, h3⟩, hv'⟩ := hv
    simp only [consumedReps] at hc
    by_cases hskip : skip_token stack ev.token ev.mtype
    · rw [if_pos hskip] at hc
      exact ih stack last reps
        (validFrom_mono (le_trans h1 h2) hv') hc
    · rw [if_neg hskip] at hc
      cases hstep : (if ev.mtype = MatchType.end_ then remove_token stack ev.token
          else some (true, stack)) with
      | none => rw [hstep] at hc; cases hc
      | some r =>
        obtain ⟨found, stack1⟩ := r
        rw [hstep] at hc
        cases found with
        | false =>
          exact ih stack1 last reps (validFrom_mono (le_trans h1 h2) hv') hc
        | true =>
          simp only [Option.map_eq_some'] at hc
          obtain ⟨reps', hrecc, hreps⟩ := hc
          subst hreps
          simp only [repsOrdered, Bool.and_eq_true, decide_eq_true_eq]
          exact ⟨⟨⟨h1, h2⟩, h3⟩, ih _ _ _ hv' hrecc⟩

/-- With the identity postprocess, every segment the loop emits for a
literal run (a between-matches gap or the trailing text) is non-empty; if no
match is a single-token match, that is every segment. -/
theorem parseLoop_literal_ne (text : List Char) :
    ∀ (ms : List MatchEv) (stack : List Token) (last : Nat)
      (segs : List Segment),
      validFrom text last ms = true →
      (∀ ev ∈ ms, ev.mtype ≠ MatchType.single) →
      parseLoop id text ms stack last = some segs →
      ∀ s ∈ segs, segText s ≠ [] := by
  intro ms
  induction ms with
  | nil =>
    intro stack last segs _ _ hp s hs
    simp only [parseLoop] at hp
    split at hp
    · rename_i hlt
      cases hp
      simp only [List.mem_singleton] at hs
      subst hs
      simp only [segText, id_eq]
      intro hnil
      have := congrArg List.length hnil
      simp only [List.length_drop, List.length_nil] at this
      omega
    · cases hp
      simp at hs
  | cons ev rest ih =>
    intro stack last segs hv hone hp s hs
    simp only [validFrom, Bool.and_eq_true, decide_eq_true_eq] at hv
    obtain ⟨⟨⟨h1, h2⟩, h3⟩, hv'⟩ := hv
    have hone' : ∀ e ∈ rest, e.mtype ≠ MatchType.single :=
      fun e he => hone e (List.mem_cons_of_mem ev he)
    have hevns : ev.mtype ≠ MatchType.single := hone ev (List.mem_cons_self ev rest)
    simp only [parseLoop] at hp
    by_cases hskip : skip_token stack ev.token ev.mtype
    · rw [if_pos hskip] at hp
      exact ih stack last segs (validFrom_mono (le_trans h1 h2) hv') hone' hp s hs
    · rw [if_neg hskip] at hp
      cases hstep : (if ev.mtype = MatchType.end_ then remove_token stack ev.token
          else some (true, stack)) with
      | none => rw [hstep] at hp; cases hp
      | some r =>
        obtain ⟨found, stack1⟩ := r
        rw [hstep] at hp
        cases found with
        | false =>
          exact ih stack1 last segs (validFrom_mono (le_trans h1 h2) hv') hone' hp s hs
        | true =>
          simp only [Option.map_eq_some'] at hp
          obtain ⟨segs', hrec, hsegs⟩ := hp
          subst hsegs
          rw [if_neg hevns] at hs
          simp only [List.append_nil, List.mem_append] at hs
          cases hs with
          | inl hbet =>
            split at hbet
            · rename_i hlt
              simp only [List.mem_singleton] at hbet
              subst hbet
              simp only [segText, id_eq]
              intro hnil
              have := congrArg List.length hnil
              simp only [extract, List.length_take, List.length_drop,
                List.length_nil] at this
              omega
            · simp at hbet
          | inr hrest =>
            exact ih _ _ _ hv' hone' hrec s hrest

/-! ## Lookup lemmas for the attribute merge -/

def oElse (a b : Option Value) : Option Value :=
  match a with
  | some v => some v
  | none => b

/-- Search a stack front to back for the first token whose params bind the
key (used with the reversed stack: innermost open token first). -/
def lookupStack (stack : List Token) (q : String) : Option Value :=
  match stack with
  | [] => none
  | t :: rest => oElse (dLookup t.params q) (lookupStack rest q)

theorem dLookup_map_set {d : Dict} {k q : String} {v : Value} (hqk : q ≠ k) :
    dLookup (d.map (fun kv => if kv.1 = k then (k, v) else kv)) q =
      dLookup d q := by
  induction d with
  | nil => rfl
  | cons kv rest ih =>
    obtain ⟨a, b⟩ := kv
    dsimp only [List.map_cons]
    split
    · rename_i hak
      subst hak
      have hne : ¬(a = q) := fun h => hqk h.symm
      simp only [dLookup, if_neg hne]
      exact ih
    · simp only [dLookup]
      split
      · rfl
      · exact ih

theorem dLookup_map_set_self {d : Dict} {k : String} {v : Value}
    (h : (dLookup d k).isSome = true) :
    dLookup (d.map (fun kv => if kv.1 = k then (k, v) else kv)) k = some v := by
  induction d with
  | nil => simp [dLookup] at h
  | cons kv rest ih =>
    obtain ⟨a, b⟩ := kv
    dsimp only [List.map_cons]
    split
    · rename_i hak
      subst hak
      simp [dLookup]
    · rename_i hak
      simp only [dLookup, if_neg hak] at h
      simp only [dLookup, if_neg hak]
      exact ih h

theorem dLookup_append (d d' : Dict) (q : String) :
    dLookup (d ++ d') q = oElse (dLookup d q) (dLookup d' q) := by
  induction d with
  | nil => rfl
  | cons kv rest ih =>
    obtain ⟨a, b⟩ := kv
    simp only [List.cons_append, dLookup]
    split
    · rfl
    · exact ih

theorem dLookup_dictSet (d : Dict) (k : String) (v : Value) (q : String) :
    dLookup (dictSet d k v) q = if q = k then some v else dLookup d q := by
  unfold dictSet
  split
  · rename_i hsome
    by_cases hqk : q = k
    · subst hqk
      rw [if_pos rfl]
      exact dLookup_map_set_self hsome
    · rw [if_neg hqk]
      exact dLookup_map_set hqk
  · rename_i hnone
    rw [dLookup_append]
    by_cases hqk : q = k
    · subst hqk
      have : dLookup d q = none := by
        cases h : dLookup d q with
        | none => rfl
        | some _ => rw [h] at hnone; simp at hnone
      simp [this, oElse, dLookup]
    · have hne : ¬(k = q) := fun h => hqk h.symm
      cases h : dLookup d q with
      | none => simp [oElse, dLookup, hqk, hne, h]
      | some w => simp [oElse, hqk, h]

theorem dLookup_eq_none_of_not_mem {d : Dict} {q : String}
    (h : q ∉ d.map Prod.fst) : dLookup d q = none := by
  induction d with
  | nil => rfl
  | cons kv rest ih =>
    obtain ⟨a, b⟩ := kv
    simp only [List.map_cons, List.mem_cons] at h
    push_neg at h
    have hne : ¬(a = q) := fun he => h.1 he.symm
    simp only [dLookup, if_neg hne]
    exact ih h.2

theorem dLookup_dictUpdate (d new : Dict) (q : String)
    (hu : (new.map Prod.fst).Nodup) :
    dLookup (dictUpdate d new) q = oElse (dLookup new q) (dLookup d q) := by
  induction new generalizing d with
  | nil => rfl
  | cons kv rest ih =>
    obtain ⟨k, v⟩ := kv
    simp only [List.map_cons, List.nodup_cons] at hu
    have : dictUpdate d ((k, v) :: rest) = dictUpdate (dictSet d k v) rest := rfl
    rw [this, ih _ hu.2, dLookup_dictSet]
    by_cases hqk : q = k
    · subst hqk
      have : dLookup rest q = none := dLookup_eq_none_of_not_mem hu.1
      simp [dLookup, this, oElse]
    · simp [dLookup, if_neg (fun h : k = q => hqk h.symm), hqk, oElse]

/-- Attribute merge (`TokenStack.get_params`): a key resolves to the binding
of the innermost open token that defines it (outer→inner merge with inner
override); keys of different tokens are combined additively. -/
theorem dLookup_get_params (stack : List Token) (q : String)
    (hu : ∀ t ∈ stack, (t.params.map Prod.fst).Nodup) :
    dLookup (get_params stack) q = lookupStack stack.reverse q := by
  induction stack using List.reverseRecOn with
  | nil => rfl
  | append_singleton xs t ih =>
    have hxs : ∀ x ∈ xs, (x.params.map Prod.fst).Nodup :=
      fun x hx => hu x (List.mem_append_left _ hx)
    have hget : get_params (xs ++ [t]) = dictUpdate (get_params xs) t.params := by
      simp [get_params, List.foldl_append]
    rw [hget, dLookup_dictUpdate _ _ _ (hu t (List.mem_append_right _ (List.mem_singleton_self t))),
      ih hxs]
    have hrev : (xs ++ [t]).reverse = t :: xs.reverse := by simp
    rw [hrev]
    rfl

/-! ## Claim theorems -/

/-- C1 (amended).  Concatenating the yielded segment texts does not
reproduce the input verbatim; it reproduces the input with every consumed
span replaced by the text that span contributes (nothing for a consumed
start or end delimiter, the emitted segment text for a single match), each
literal gap passing through `postprocess`.  The consumed spans are ordered,
non-overlapping and inside the text, so together with the literal gaps they
tile the input with no gaps or overlaps; skipped delimiters and unmatched
closers stay inside literal runs. -/
theorem claim_C1_partition :
    ∀ (post : List Char → List Char) (tokens : List Token) (text : List Char)
      (segs : List Segment) (reps : List (Nat × Nat × List Char)),
      parseWith post tokens text = some segs →
      consumedReps text (finditer (build_regex tokens) text) [] 0 = some reps →
      joinTexts segs = spliceWith post text 0 reps ∧
        repsOrdered text 0 reps = true := by
  intro post tokens text segs reps hp hc
  exact ⟨parseLoop_splice post text _ _ _ _ _ hp hc,
    consumedReps_ordered text _ _ _ _ (finditer_valid _ text) hc⟩

/-- C1 witness: the bold token on `**b**`, where the two consumed delimiter
spans contribute nothing and the literal gap contributes `b`. -/
theorem claim_C1_partition_witness :
    joinTexts [⟨Value.str ['b'], [("is_bold", Value.bool true)]⟩] =
      spliceWith id (String.toList "**b**") 0 [(0, 2, []), (3, 5, [])] ∧
      repsOrdered (String.toList "**b**") 0 [(0, 2, []), (3, 5, [])] = true :=
  claim_C1_partition id [bToken] (String.toList "**b**")
    [⟨Value.str ['b'], [("is_bold", Value.bool true)]⟩]
    [(0, 2, []), (3, 5, [])] rfl rfl

/-- C1 counterexample to the claim as stated: with the identity postprocess,
parsing `**b**` with the bold token yields the single segment `b`, whose
text does not reproduce the input — the consumed `**` delimiters are gone. -/
theorem claim_C1_partition_cx :
    parse [bToken] (String.toList "**b**") =
      some [⟨Value.str ['b'], [("is_bold", Value.bool true)]⟩] ∧
      joinTexts [⟨Value.str ['b'], [("is_bold", Value.bool true)]⟩] ≠
        String.toList "**b**" :=
  ⟨rfl, by decide⟩

/-- C2 (code bug).  `TokenStack.remove_token` evaluates `self.__data[-1]`
before anything else, so on an empty stack it raises `IndexError` instead of
returning `False`; consequently `parse` raises on `**x` with the bare paired
token `Token('s', r'\*\*', r'\*\*')`, whose end alternative matches the
leading `**` while the stack is still empty. -/
theorem claim_C2_remove_token_raises :
    remove_token ([] : List Token) sToken = none ∧
      parse [sToken] (String.toList "**x") = none :=
  ⟨rfl, rfl⟩

/-- C5.  For every paired token the effective start pattern carries the
`(?=.+?pattern_end)` lookahead, so a start match at `i` of length `l`
guarantees an occurrence of the end pattern strictly beyond `i + l`; and
`**unterminated` parses to one plain segment with no attributes. -/
theorem claim_C5_pairing_lookahead :
    (∀ (t : Token) (e : Pat) (text : List Char) (i l : Nat),
      t.pend = some e →
      matchAt (Token.pattern_start t) text i = some l →
      ∃ k, i + l < k ∧ k ≤ text.length ∧ (matchAt e text k).isSome = true) ∧
    parse [bToken] (String.toList "**unterminated") =
      some [⟨Value.str (String.toList "**unterminated"), []⟩] := by
  constructor
  · intro t e text i l hpend hm
    simp only [Token.pattern_start, hpend] at hm
    simp only [matchAt] at hm
    split at hm
    · cases hm
    · rename_i l1 hp1
      split at hm
      · cases hm
      · rename_i l2 h2
        cases hm
        split at h2
        · rename_i hcond
          cases h2
          rw [List.any_eq_true] at hcond
          obtain ⟨k, hkmem, hk⟩ := hcond
          rw [List.mem_range] at hkmem
          simp only [Bool.and_eq_true, decide_eq_true_eq] at hk
          exact ⟨k, by omega, by omega, hk.2⟩
        · cases h2
  · rfl

theorem claim_C5_pairing_lookahead_witness :
    ∃ k, 0 + 2 < k ∧ k ≤ (String.toList "**b**").length ∧
      (matchAt (mdEndPat ['*', '*']) (String.toList "**b**") k).isSome = true :=
  claim_C5_pairing_lookahead.1 bToken (mdEndPat ['*', '*'])
    (String.toList "**b**") 0 2 rfl rfl

/-- C6.  `TokenStack.skip_token` is true exactly when the top of the stack
is a skip token and either it is the incoming token itself with a non-end
match, or it is a different (still open) skip token; an empty stack or a
non-skip top yields false. -/
theorem claim_C6_skip_token :
    ∀ (stack : List Token) (token : Token) (mt : MatchType),
      skip_token stack token mt = true ↔
        ∃ top, stack.getLast? = some top ∧ top.skip = true ∧
          ((top = token ∧ mt ≠ MatchType.end_) ∨ top ≠ token) := by
  intro stack token mt
  cases hl : stack.getLast? with
  | none => simp [skip_token, hl]
  | some top =>
    by_cases heq : top = token
    · subst heq
      cases hsk : top.skip <;> cases mt <;> simp [skip_token, hl, hsk]
    · cases hsk : top.skip <;> cases mt <;> simp [skip_token, hl, hsk, heq]

/-- C7.  `TokenStack.get_params` merges outer to inner with inner values
overriding on key collision and distinct keys combined additively: a key
resolves to the binding of the innermost open token that defines it.  On
the nested example, `this` carries both `is_bold` and `is_italic`, the
surrounding bold-only text carries `is_bold` alone. -/
theorem claim_C7_params_merge :
    (∀ (stack : List Token) (q : String),
      (∀ t ∈ stack, (t.params.map Prod.fst).Nodup) →
      dLookup (get_params stack) q = lookupStack stack.reverse q) ∧
    parse [bToken, iToken] (String.toList "You can **try *this* awesome**") =
      some [⟨Value.str (String.toList "You can "), []⟩,
        ⟨Value.str (String.toList "try "), [("is_bold", Value.bool true)]⟩,
        ⟨Value.str (String.toList "this"),
          [("is_bold", Value.bool true), ("is_italic", Value.bool true)]⟩,
        ⟨Value.str (String.toList " awesome"), [("is_bold", Value.bool true)]⟩] :=
  ⟨fun stack q hu => dLookup_get_params stack q hu, rfl⟩

theorem claim_C7_params_merge_witness :
    dLookup (get_params [bToken, iToken]) "is_bold" =
      lookupStack [bToken, iToken].reverse "is_bold" :=
  claim_C7_params_merge.1 [bToken, iToken] "is_bold" (by decide)

/-- C9.  The pairing lookahead is `(?=.+?end)`: a paired token's start
pattern matches exactly when the caller's start pattern matches and the end
pattern occurs at least one character beyond the consumed span — so a
zero-length span (closer immediately after the opener, as in `****` for the
bare `**` token) is never a start match, while `*****` is. -/
theorem claim_C9_nonempty_span :
    (∀ (t : Token) (e : Pat) (text : List Char) (i l : Nat),
      t.pend = some e →
      (matchAt (Token.pattern_start t) text i = some l ↔
        (matchAt t.pstart text i = some l ∧
          ∃ k, i + l + 1 ≤ k ∧ k ≤ text.length ∧
            (matchAt e text k).isSome = true))) ∧
    matchAt (Token.pattern_start sToken) (String.toList "****") 0 = none ∧
    matchAt (Token.pattern_start sToken) (String.toList "*****") 0 = some 2 := by
  refine ⟨?_, rfl, rfl⟩
  intro t e text i l hpend
  simp only [Token.pattern_start, hpend]
  constructor
  · intro hm
    simp only [matchAt] at hm
    split at hm
    · cases hm
    · rename_i l1 hp1
      split at hm
      · cases hm
      · rename_i l2 h2
        cases hm
        split at h2
        · rename_i hcond
          cases h2
          rw [List.any_eq_true] at hcond
          obtain ⟨k, hkmem, hk⟩ := hcond
          rw [List.mem_range] at hkmem
          simp only [Bool.and_eq_true, decide_eq_true_eq] at hk
          refine ⟨?_, k, by omega, by omega, hk.2⟩
          rw [Nat.add_zero]
          exact hp1
        · cases h2
  · rintro ⟨hp1, k, hk1, hk2, hk3⟩
    simp only [matchAt, hp1]
    have hcond : (List.range (text.length + 1)).any
        (fun k' => decide (i + l + 1 ≤ k') && (matchAt e text k').isSome) = true := by
      rw [List.any_eq_true]
      exact ⟨k, List.mem_range.mpr (by omega),
        by simp only [Bool.and_eq_true, decide_eq_true_eq]; exact ⟨hk1, hk3⟩⟩
    rw [if_pos hcond]
    rfl

theorem claim_C9_nonempty_span_witness :
    matchAt sToken.pstart (String.toList "*****") 0 = some 2 ∧
      ∃ k, 0 + 2 + 1 ≤ k ∧ k ≤ (String.toList "*****").length ∧
        (matchAt (Pat.lit ['*', '*']) (String.toList "*****") k).isSome = true :=
  (claim_C9_nonempty_span.1 sToken (Pat.lit ['*', '*'])
    (String.toList "*****") 0 2 rfl).mp rfl

/-- C10.  Literal-text segments are only emitted for non-empty spans: a
between-matches segment needs the match start strictly beyond the last
consumed position and a trailing segment needs text left over, so with the
identity postprocess every segment of a parse whose matches are all
paired-delimiter events is non-empty, and `parse ""` yields no segments. -/
theorem claim_C10_no_empty_literals :
    (∀ (tokens : List Token) (text : List Char) (segs : List Segment),
      parseWith id tokens text = some segs →
      (∀ ev ∈ finditer (build_regex tokens) text, ev.mtype ≠ MatchType.single) →
      ∀ s ∈ segs, segText s ≠ []) ∧
    parse [bToken, iToken] (String.toList "") = some [] := by
  constructor
  · intro tokens text segs hp hone s hs
    exact parseLoop_literal_ne text _ _ _ _ (finditer_valid _ text) hone hp s hs
  · rfl

theorem claim_C10_no_empty_literals_witness :
    segText ⟨Value.str ['b'], [("is_bold", Value.bool true)]⟩ ≠ [] :=
  claim_C10_no_empty_literals.1 [bToken] (String.toList "**b**")
    [⟨Value.str ['b'], [("is_bold", Value.bool true)]⟩] rfl (by decide)
    ⟨Value.str ['b'], [("is_bold", Value.bool true)]⟩ (by simp)

/-! ## MatchGroup (`reparser.MatchGroup`)

`get_group_value` is modelled on Python values: a capture's value is
`Option String` (`none` is Python `None`, the value of a group that is
defined in the pattern but did not participate in the match), and a
transform function maps such values.  `match.group(name)` raises
`IndexError` only when `name` is not a group of the pattern. -/

structure MatchGroup where
  group : String
  func : Option (Option String → Option String)

/-- A match object, for capture lookup: the pattern's group names paired
with their captured value (`none` = the group did not participate). -/
abbrev ReMatch := List (String × Option String)

def aLookup (m : ReMatch) (name : String) : Option (Option String) :=
  match m with
  | [] => none
  | (n, v) :: rest => if n = name then some v else aLookup rest name

/-- `MatchGroup.get_group_value`: look up the capture named
`{token.name}_{group}`; on `IndexError` (name not in the pattern) fall back
to `''`; then apply the transform if one was supplied. -/
def MatchGroup.get_group_value (mg : MatchGroup) (token : Token)
    (m : ReMatch) : Option String :=
  let value : Option String :=
    match aLookup m (token.name ++ "_" ++ mg.group) with
    | none => some ""
    | some v => v
  match mg.func with
  | none => value
  | some f => f value

/-- A token for the standalone `get_group_value` examples. -/
def cTok : Token :=
  { name := "t", skip := false, params := [], pstart := .lit ['x'], pend := none }

/-! ## Markdown layer (`reparser.markdown`) -/

structure MarkdownTag where
  char : List Char
  skip : Bool
  params : Dict
deriving DecidableEq

/-- `token.char.replace(r'\*', '*')` — the key under which a tag is stored
in a `MarkdownGroup`'s char→tag mapping. -/
def unescapeStars : List Char → List Char
  | [] => []
  | '\\' :: '*' :: rest => '*' :: unescapeStars rest
  | c :: rest => c :: unescapeStars rest

/-- `MarkdownGroup`: one shared `Token` wrapping several `MarkdownTag`s,
keeping the char→tag mapping (`self.__tokens`).  Only the fields the claims
touch are modelled; the group's compound start/end patterns are built by
`Token.__init__` exactly as for any paired token. -/
structure MarkdownGroup where
  tokens : List MarkdownTag
  name : String
deriving DecidableEq

/-- `MarkdownGroup.get_tag`: dict lookup on the unescaped char; a later tag
with the same key overrides an earlier one (Python dict insertion), and a
missing key is a `KeyError` (`none`). -/
def MarkdownGroup.get_tag (g : MarkdownGroup) (c : List Char) : Option MarkdownTag :=
  g.tokens.reverse.findSome?
    (fun t => if unescapeStars t.char = c then some t else none)

/-- The `tokens` argument of `MarkdownBaseParser.__init__`: ordinary Token,
MarkdownGroup (a Token subclass), or bare MarkdownTag. -/
inductive MixedToken where
  | tok (t : Token)
  | group (g : MarkdownGroup)
  | tag (t : MarkdownTag)
deriving DecidableEq

abbrev FinalTok := Sum Token MarkdownGroup

def finalName : FinalTok → String
  | .inl t => t.name
  | .inr g => g.name

/-- The bare `MarkdownTag` entries, in order (`tags_to_wrap`). -/
def tagsOf (tokens : List MixedToken) : List MarkdownTag :=
  tokens.filterMap (fun m => match m with | .tag t => some t | _ => none)

/-- The names collected by the constructor loop: only names of
`MarkdownGroup` entries (`names.append(mixed.name)` runs only in the
`isinstance(mixed, MarkdownGroup)` branch). -/
def groupNamesOf (tokens : List MixedToken) : List String :=
  tokens.filterMap (fun m => match m with | .group g => some g.name | _ => none)

/-- The non-tag entries kept as parser tokens, in order (`final_tokens`
before the wrap-up group is appended). -/
def nonTagsOf (tokens : List MixedToken) : List FinalTok :=
  tokens.filterMap
    (fun m => match m with
      | .tok t => some (Sum.inl t)
      | .group g => some (Sum.inr g)
      | .tag _ => none)

def maxNameLen (names : List String) : Nat :=
  names.foldr (fun n acc => max n.length acc) 0

/-- The `while unique_name in names: unique_name += 'G'` loop.  The fuel is
an upper bound on the iterations the Python loop can take; the candidate
grows by one character per step, so `maxNameLen names + 1` steps always
reach a fresh name. -/
def uniqueNameAux : Nat → String → List String → String
  | 0, n, _ => n
  | fuel + 1, n, names =>
    if n ∈ names then uniqueNameAux fuel (n ++ "G") names else n

/-- `MarkdownBaseParser.__init__`: split the mixed list, keep non-tag
entries in order, and append one `MarkdownGroup` wrapping all bare tags
under a name chosen to avoid the collected `MarkdownGroup` names. -/
def md_init (tokens : List MixedToken) : List FinalTok :=
  let tags_to_wrap := tagsOf tokens
  let names := groupNamesOf tokens
  let final_tokens := nonTagsOf tokens
  if tags_to_wrap = [] then final_tokens
  else
    final_tokens ++
      [Sum.inr ⟨tags_to_wrap, uniqueNameAux (maxNameLen names + 1) "markdown" names⟩]

theorem le_maxNameLen {names : List String} {n : String} (h : n ∈ names) :
    n.length ≤ maxNameLen names := by
  induction names with
  | nil => cases h
  | cons a rest ih =>
    cases h with
    | head => simp [maxNameLen, le_max_iff]
    | tail _ hmem =>
      simp only [maxNameLen, List.foldr_cons, le_max_iff]
      exact Or.inr (ih hmem)

theorem uniqueNameAux_not_mem :
    ∀ (fuel : Nat) (n : String) (names : List String),
      maxNameLen names < n.length + fuel →
      uniqueNameAux fuel n names ∉ names := by
  intro fuel
  induction fuel with
  | zero =>
    intro n names hlt hmem
    simp only [uniqueNameAux] at hmem
    have := le_maxNameLen hmem
    omega
  | succ fuel ih =>
    intro n names hlt
    simp only [uniqueNameAux]
    split
    · refine ih (n ++ "G") names ?_
      have hG : "G".length = 1 := by decide
      have : (n ++ "G").length = n.length + 1 := by
        rw [String.length_append, hG]
      omega
    · assumption

/-! ## Markdown dispatch (`MarkdownBaseParser.get_matched_token`)

The body of this override is in the sources, but it runs against a newer
core than the one in `reparser/__init__.py`: it calls
`super().get_matched_token(match, token_stack)` and
`token_stack.get_last_token()`, neither of which the shipped core defines.
The missing pieces are modelled from the spec. -/

/-- An entry of the newer core's token stack: an ordinary token or a
markdown tag recovered by the markdown dispatch. -/
abbrev StackEntry := Sum Token MarkdownTag

/-- Modelled from the spec: `TokenStack.get_last_token` is absent from the
sources (`reparser/__init__.py` has no such method); per the spec it returns
"the top of the active-token stack", raising `IndexError` (here `none`) on
an empty stack, which the caller catches. -/
def get_last_token (stack : List StackEntry) : Option StackEntry :=
  stack.getLast?

/-- `MarkdownBaseParser.get_matched_token`, after the base dispatch has
attributed the match to a `MarkdownGroup`: look the matched text up in the
group's char→tag table (`KeyError` = `none`), and for a skip tag whose
instance already sits on top of the stack reclassify the event as an
end-match; otherwise keep the base match type. -/
def md_get_matched_token (g : MarkdownGroup) (base_mt : MatchType)
    (matched : List Char) (stack : List StackEntry) :
    Option (MarkdownTag × MatchType) :=
  match g.get_tag matched with
  | none => none
  | some tag =>
    let mt :=
      if tag.skip then
        match get_last_token stack with
        | none => base_mt
        | some last => if last = Sum.inr tag then MatchType.end_ else base_mt
      else base_mt
    some (tag, mt)

/-- An ordinary token literally named `markdown` (not a `MarkdownGroup`). -/
def plainMd : Token :=
  { name := "markdown", skip := false, params := [],
    pstart := .lit ['x'], pend := none }

/-- `MarkdownTag(r'\*\*', is_bold=True)`. -/
def bTag : MarkdownTag :=
  { char := ['\\', '*', '\\', '*'], skip := false,
    params := [("is_bold", Value.bool true)] }

/-- `MarkdownTag(r'`', skip=True)`. -/
def preTag : MarkdownTag := { char := ['`'], skip := true, params := [] }

def mdGroup1 : MarkdownGroup := { tokens := [preTag], name := "markdown" }

/-- C3 counterexample: when the caller supplies an ordinary `Token` named
`markdown` (not a `MarkdownGroup`), its name is never collected into
`names`, so the appended group is still named `markdown` and the two final
tokens share that name — the claim's "does not collide even when the caller
also supplies a Token literally named markdown" fails. -/
theorem claim_C3_markdown_init_cx :
    md_init [MixedToken.tok plainMd, MixedToken.tag bTag] =
      [Sum.inl plainMd, Sum.inr ⟨[bTag], "markdown"⟩] ∧
      finalName (Sum.inr (⟨[bTag], "markdown"⟩ : MarkdownGroup)) = plainMd.name :=
  ⟨rfl, rfl⟩

/-- C3 (amended).  Every bare `MarkdownTag` entry is wrapped into exactly
one `MarkdownGroup` appended after the other tokens, and the group's
auto-chosen name avoids the names of the supplied `MarkdownGroup` tokens —
but only those: a plain `Token` named `markdown` still collides, because the
constructor collects names from `MarkdownGroup` instances alone. -/
theorem claim_C3_markdown_init :
    ∀ tokens : List MixedToken,
      tagsOf tokens ≠ [] →
      ∃ g : MarkdownGroup,
        md_init tokens = nonTagsOf tokens ++ [Sum.inr g] ∧
        g.tokens = tagsOf tokens ∧
        g.name ∉ groupNamesOf tokens := by
  intro tokens htags
  refine ⟨⟨tagsOf tokens,
    uniqueNameAux (maxNameLen (groupNamesOf tokens) + 1) "markdown"
      (groupNamesOf tokens)⟩, ?_, rfl, ?_⟩
  · simp [md_init, htags]
  · exact uniqueNameAux_not_mem _ _ _ (by omega)

theorem claim_C3_markdown_init_witness :
    ∃ g : MarkdownGroup,
      md_init [MixedToken.group mdGroup1, MixedToken.tag bTag] =
        nonTagsOf [MixedToken.group mdGroup1, MixedToken.tag bTag] ++ [Sum.inr g] ∧
      g.tokens = tagsOf [MixedToken.group mdGroup1, MixedToken.tag bTag] ∧
      g.name ∉ groupNamesOf [MixedToken.group mdGroup1, MixedToken.tag bTag] :=
  claim_C3_markdown_init [MixedToken.group mdGroup1, MixedToken.tag bTag]
    (by decide)

/-- C4.  When a `MarkdownGroup` alternative fires, the matched text is
mapped back to its `MarkdownTag`; for a skip tag whose very instance is on
top of the active-token stack the event is reclassified as an end-match, and
in every other case (non-skip tag, empty stack, different top entry) the
base engine's match type is kept. -/
theorem claim_C4_skip_reclassify :
    ∀ (g : MarkdownGroup) (mt : MatchType) (matched : List Char)
      (stack : List StackEntry) (tag : MarkdownTag),
      g.get_tag matched = some tag →
      md_get_matched_token g mt matched stack =
        some (tag,
          if tag.skip = true ∧ get_last_token stack = some (Sum.inr tag)
          then MatchType.end_ else mt) := by
  intro g mt matched stack tag htag
  simp only [md_get_matched_token, htag]
  cases hsk : tag.skip with
  | false => simp [hsk]
  | true =>
    cases hl : get_last_token stack with
    | none => simp [hsk, hl]
    | some last =>
      by_cases heq : last = Sum.inr tag
      · simp [hsk, hl, heq]
      · simp [hsk, hl, heq]

theorem claim_C4_skip_reclassify_witness :
    md_get_matched_token mdGroup1 MatchType.start ['`'] [Sum.inr preTag] =
      some (preTag, MatchType.end_) := by
  have h := claim_C4_skip_reclassify mdGroup1 MatchType.start ['`']
    [Sum.inr preTag] preTag rfl
  rw [h]
  rfl

/-- C8 counterexample: a capture that is defined in the pattern but did not
participate in the match resolves to Python `None`, not the empty string —
`match.group` returns `None` for it and only an unknown group name raises
the `IndexError` the method catches. -/
theorem claim_C8_get_group_value_cx :
    MatchGroup.get_group_value ⟨"g", none⟩ cTok [("t_g", none)] = none ∧
      MatchGroup.get_group_value ⟨"g", none⟩ cTok [("t_g", none)] ≠ some "" := by
  constructor
  · rfl
  · intro h
    cases h

/-- C8 (amended).  `get_group_value` resolves a capture name absent from
the pattern (the `IndexError` case) to the empty string; a participating
capture yields its raw text; a defined but non-participating capture yields
Python `None`; in every case the transform, when supplied, is applied to
that value and its result returned, otherwise the value is returned
unchanged. -/
theorem claim_C8_get_group_value :
    ∀ (mg : MatchGroup) (token : Token) (m : ReMatch),
      (aLookup m (token.name ++ "_" ++ mg.group) = none →
        mg.get_group_value token m =
          (match mg.func with | none => some "" | some f => f (some ""))) ∧
      (∀ s, aLookup m (token.name ++ "_" ++ mg.group) = some (some s) →
        mg.get_group_value token m =
          (match mg.func with | none => some s | some f => f (some s))) ∧
      (aLookup m (token.name ++ "_" ++ mg.group) = some none →
        mg.get_group_value token m =
          (match mg.func with | none => none | some f => f none)) := by
  intro mg token m
  refine ⟨?_, ?_, ?_⟩
  · intro h
    simp only [MatchGroup.get_group_value, h]
  · intro s h
    simp only [MatchGroup.get_group_value, h]
  · intro h
    simp only [MatchGroup.get_group_value, h]

theorem claim_C8_get_group_value_witness :
    MatchGroup.get_group_value ⟨"g", none⟩ cTok [("t_g", some "hello")] =
      some "hello" :=
  (claim_C8_get_group_value ⟨"g", none⟩ cTok [("t_g", some "hello")]).2.1
    "hello" rfl

end Reparser
